import Mathlib

set_option maxRecDepth 4000

/-!
Verification development for the two game engines of this repository:
the XO (tic-tac-toe) minimax search of `Projects/Project_1/XO_Game.py`
and the Sea-Battle placement/combat board of
`Projects/Project_2/Sea_Battle_Game.py`.

The Python code is embedded shallowly: the mutable 9-cell board dictionary
(keys 1..9 in insertion order) becomes a `List Mark` of length 9 whose index
`i` holds cell `i+1`; in-place mutation with undo inside `get_best_move`
becomes explicit board threading, so the board is an extra component of the
result.  The Sea-Battle `Board` object becomes a record, and methods that can
raise become `Except`-valued functions.
-/

namespace XO

/-- Cell contents on the XO board: the characters `'X'`, `'0'` and `' '`. -/
inductive Mark where
  | X : Mark
  | O : Mark
  | E : Mark
deriving DecidableEq, Repr

/-- The board dictionary `board_mask` with keys 1..9: index `i` is cell `i+1`. -/
abbrev XBoard := List Mark

/-- `board_mask[cell]` (cells are numbered 1..9 as in the source). -/
def getCell (b : XBoard) (cell : Nat) : Mark := b.getD (cell - 1) Mark.E

/-- `board_mask[cell] = m` (assignment to an existing key). -/
def setCell (b : XBoard) (cell : Nat) (m : Mark) : XBoard := b.set (cell - 1) m

/-- `get_empty_cells`: the keys holding `' '`, in the dictionary's insertion
order, which is ascending cell number 1..9. -/
def get_empty_cells (b : XBoard) : List Nat :=
  ((List.range b.length).filter (fun i => decide (b.getD i Mark.E = Mark.E))).map (· + 1)

/-- Number of empty cells (recursion measure for the search). -/
def countE (b : XBoard) : Nat := b.countP (fun m => decide (m = Mark.E))

/-- The 8 `win_lines` of `get_winning`: three rows, three columns, the two
diagonals. -/
def win_lines : List (Nat × Nat × Nat) :=
  [(1, 2, 3), (4, 5, 6), (7, 8, 9),
   (1, 4, 7), (2, 5, 8), (3, 6, 9),
   (1, 5, 9), (3, 5, 7)]

/-- `len(cells_of m ∩ line) == 3`: the three cells of `line` all hold `m`. -/
def line_owned (b : XBoard) (m : Mark) (l : Nat × Nat × Nat) : Bool :=
  decide (getCell b l.1 = m) && decide (getCell b l.2.1 = m) &&
    decide (getCell b l.2.2 = m)

/-- `get_winning`: some line is fully owned by `'X'` or fully owned by `'0'`. -/
def get_winning (b : XBoard) : Bool :=
  win_lines.any (fun l => line_owned b Mark.X l || line_owned b Mark.O l)

/-- The update guard of the search loop.  `best` is `none` before the first
iteration, standing for the float `-inf` (maximizing side) or `+inf`
(minimizing side), against which any finite score compares favourably. -/
def scoreBetter (p : Bool) (res : Int) (best : Option Int) : Bool :=
  match best with
  | none => true
  | some s => if p then decide (res > s) else decide (res < s)

/-- The `for cell in get_empty_cells(board_mask)` loop of `get_best_move`.
State: `(best_score, best_move, board)`; the board is threaded to model the
in-place mark / recursive call / undo sequence of the source. -/
def gbmLoop (rec : XBoard → Bool → Int × Option Nat × XBoard) (sign : Bool → Mark)
    (p : Bool) : List Nat → Option Int × Option Nat × XBoard →
    Option Int × Option Nat × XBoard
  | [], st => st
  | cell :: rest, (best, move, b) =>
    let b1 := setCell b cell (sign p)
    let r := rec b1 (!p)
    let b3 := setCell r.2.2 cell Mark.E
    if scoreBetter p r.1 best then
      gbmLoop rec sign p rest (some r.1, some cell, b3)
    else
      gbmLoop rec sign p rest (best, move, b3)

/-- `get_best_move`, fuelled.  The fuel only bounds the recursion depth; the
real entry point supplies `countE b + 1`, which is exactly sufficient (each
ply fills one empty cell), so the fuel-0 fallback is never reached there.
The fallback returns the board unchanged with a dummy score.
`sign q` is `players[q]['sign']`.  The score `-inf`/`+inf` can never be
returned (a nonempty loop always replaces it), so the final `getD 0` is
a never-used default. -/
def gbmFuel (sign : Bool → Mark) : Nat → XBoard → Bool → Int × Option Nat × XBoard
  | 0, b, _ => (0, none, b)
  | fuel + 1, b, p =>
    let rm := get_empty_cells b
    if get_winning b then
      ((if p then (-10 : Int) else 10), none, b)
    else if rm.isEmpty then
      (0, none, b)
    else
      let r := gbmLoop (gbmFuel sign fuel) sign p rm (none, none, b)
      (r.1.getD 0, r.2)

/-- `get_best_move(board_mask, player)`: returns `[best_score, best_move]`
together with the final state of the board argument (threaded mutation). -/
def get_best_move (sign : Bool → Mark) (b : XBoard) (p : Bool) :
    Int × Option Nat × XBoard :=
  gbmFuel sign (countE b + 1) b p

/-- The minimax value the search assigns to playing `sign p` at `cell` and
handing the turn to the opponent. -/
def child_value (sign : Bool → Mark) (b : XBoard) (p : Bool) (cell : Nat) : Int :=
  (get_best_move sign (setCell b cell (sign p)) (!p)).1

/-- The sign assignment of an actual match: one side `'X'`, the other `'0'`. -/
def signStd : Bool → Mark := fun q => if q then Mark.X else Mark.O

/-- A pure mirror of the search loop acting only on `(best_score, best_move)`,
with the recursive scores abstracted into `g`; used to characterize
`gbmLoop` once board restoration is established. -/
def tieFold (p : Bool) (g : Nat → Int) : List Nat → Option Int × Option Nat →
    Option Int × Option Nat
  | [], st => st
  | c :: rest, (best, move) =>
    if scoreBetter p (g c) best then tieFold p g rest (some (g c), some c)
    else tieFold p g rest (best, move)

end XO

namespace Sea

/-- `Cell`: a (row, column) pair.  Coordinates are integers: the halo
computation feeds offsets like `-1` into `Cell`, so they can be negative
(such cells are then rejected by `outside_board`). -/
structure Cell where
  row : Int
  column : Int
deriving DecidableEq, Repr

/-- `Ship`: anchor cell, length, orientation (`True` = vertical, the truthy
`1` of the source), and a health counter.  `__init__` sets
`health = length`; `mkShip` below mirrors that. -/
structure Ship where
  coord : Cell
  length : Nat
  orientation : Bool
  health : Int
deriving DecidableEq, Repr

/-- The `Ship(...)` constructor: health starts equal to length. -/
def mkShip (coord : Cell) (length : Nat) (orientation : Bool) : Ship :=
  ⟨coord, length, orientation, (length : Int)⟩

/-- `Ship.cells`: the anchor extended `length` steps along the orientation
axis (rows if vertical, columns if horizontal). -/
def Ship.cells (s : Ship) : List Cell :=
  (List.range s.length).map (fun k =>
    if s.orientation then ⟨s.coord.row + k, s.coord.column⟩
    else ⟨s.coord.row, s.coord.column + k⟩)

/-- The five cell states of `Board.mask`: `" "`, `"▓"`, `"X"`, `"."`, `"·"`. -/
inductive Sym where
  | blank : Sym
  | shipS : Sym
  | hitS : Sym
  | missS : Sym
  | dotS : Sym
deriving DecidableEq, Repr

/-- The `Board` object: size, hide flag, destroyed-ship counter, the 2D
`mask`, the occupied-cell list and the ship list. -/
structure Board where
  size : Nat
  hide : Bool
  count : Nat
  mask : List (List Sym)
  occupy_cells : List Cell
  ships : List Ship
deriving DecidableEq, Repr

/-- The `Board.__init__` validity test, exactly as written in the source:
the Python chained comparison `5 > size > 10` means `5 > size ∧ size > 10`. -/
def board_size_invalid (size : Nat) : Bool :=
  decide (5 > size) && decide (size > 10)

/-- The record `__init__` builds when it does not raise. -/
def mkBoard (hide : Bool) (size : Nat) : Board :=
  ⟨size, hide, 0, List.replicate size (List.replicate size Sym.blank), [], []⟩

/-- `Board.__init__`: raises `BoardSizeException` iff `5 > size > 10`. -/
def Board.init (hide : Bool) (size : Nat) : Except Unit Board :=
  if board_size_invalid size then Except.error () else Except.ok (mkBoard hide size)

/-- `outside_board`: the cell is not within `0 ≤ row < size ∧ 0 ≤ col < size`. -/
def outside_board (bd : Board) (cell : Cell) : Bool :=
  !(decide (0 ≤ cell.row) && decide (cell.row < (bd.size : Int)) &&
    decide (0 ≤ cell.column) && decide (cell.column < (bd.size : Int)))

/-- `self.mask[r][c] = s`.  All writes in the source are guarded by
`outside_board`, so `r, c ≥ 0` whenever this is reached. -/
def setMask (m : List (List Sym)) (r c : Int) (s : Sym) : List (List Sym) :=
  m.set r.toNat ((m.getD r.toNat []).set c.toNat s)

/-- `self.mask[r][c]` (readback used only in statements). -/
def getMask (m : List (List Sym)) (r c : Int) : Sym :=
  (m.getD r.toNat []).getD c.toNat Sym.blank

/-- The `around_ship` offset table of `aureole`. -/
def around_ship : List (Int × Int) :=
  [(-1, -1), (-1, 0), (-1, 1),
   (0, -1), (0, 0), (0, 1),
   (1, -1), (1, 0), (1, 1)]

/-- Inner loop of `aureole`: walk the offsets around one ship cell, adding
every in-bounds, not-yet-occupied neighbour to `occupy_cells` (dotting it
when `visibility` is set). -/
def aureole_around (visibility : Bool) (c : Cell) :
    List (Int × Int) → Board → Board
  | [], b => b
  | off :: rest, b =>
    let current : Cell := ⟨c.row + off.1, c.column + off.2⟩
    if outside_board b current = false ∧ current ∉ b.occupy_cells then
      aureole_around visibility c rest
        { b with
          mask := if visibility then
              setMask b.mask current.row current.column Sym.dotS
            else b.mask,
          occupy_cells := b.occupy_cells ++ [current] }
    else
      aureole_around visibility c rest b

/-- Outer loop of `aureole` over the ship's cells. -/
def aureole_cells (visibility : Bool) : List Cell → Board → Board
  | [], b => b
  | c :: rest, b => aureole_cells visibility rest (aureole_around visibility c around_ship b)

/-- `Board.aureole(ship, visibility)`. -/
def aureole (bd : Board) (ship : Ship) (visibility : Bool) : Board :=
  aureole_cells visibility ship.cells bd

/-- The commit loop of `add_ship`: paint each cell and append it to
`occupy_cells`. -/
def place_cells (sign : Sym) : List Cell → Board → Board
  | [], b => b
  | cell :: rest, b =>
    place_cells sign rest
      { b with
        mask := setMask b.mask cell.row cell.column sign,
        occupy_cells := b.occupy_cells ++ [cell] }

/-- `Board.add_ship`: first a read-only pass raising
`WrongPositionShipException` if any cell is out of bounds or occupied
(the error carries the board at raise time, which is the untouched input),
then the commit pass, the `ships` append and the invisible halo. -/
def add_ship (bd : Board) (ship : Ship) : Except Board Board :=
  let sign := if bd.hide then Sym.blank else Sym.shipS
  if ship.cells.any (fun cell =>
      outside_board bd cell || decide (cell ∈ bd.occupy_cells)) then
    Except.error bd
  else
    let bd1 := place_cells sign ship.cells bd
    let bd2 := { bd1 with ships := bd1.ships ++ [ship] }
    Except.ok (aureole bd2 ship false)

/-- The three exits of `Board.shot`'s body: `return True` after
`"Корабль уничтожен!"`, `return True` after `"Корабль ранен!"`, and
`return False` after `"Мимо!"`. -/
inductive ShotResult where
  | destroyed : ShotResult
  | wounded : ShotResult
  | miss : ShotResult
deriving DecidableEq, Repr

/-- The two exceptions `Board.shot` can raise. -/
inductive ShotError where
  | outside : ShotError
  | occupied : ShotError
deriving DecidableEq, Repr

/-- The `for ship in self.ships` loop of `shot`; `i` is the position of the
current ship inside `bd.ships` (the source mutates the aliased object, which
is replacement at that position). -/
def shot_loop (cell : Cell) (bd : Board) : Nat → List Ship → ShotResult × Board
  | _, [] =>
    (ShotResult.miss,
     { bd with mask := setMask bd.mask cell.row cell.column Sym.missS })
  | i, ship :: rest =>
    if cell ∈ ship.cells then
      let ship2 : Ship := { ship with health := ship.health - 1 }
      let bd1 : Board :=
        { bd with
          ships := bd.ships.set i ship2,
          mask := setMask bd.mask cell.row cell.column Sym.hitS }
      if ship2.health = 0 then
        (ShotResult.destroyed, aureole { bd1 with count := bd1.count + 1 } ship2 true)
      else
        (ShotResult.wounded, bd1)
    else
      shot_loop cell bd (i + 1) rest

/-- `Board.shot(cell)`. -/
def shot (bd : Board) (cell : Cell) : Except ShotError (ShotResult × Board) :=
  if outside_board bd cell then Except.error ShotError.outside
  else if cell ∈ bd.occupy_cells then Except.error ShotError.occupied
  else
    let bd1 : Board := { bd with occupy_cells := bd.occupy_cells ++ [cell] }
    Except.ok (shot_loop cell bd1 0 bd1.ships)

/-- `Board.begin`: resets `occupy_cells` to the empty list. -/
def Board.begin (bd : Board) : Board := { bd with occupy_cells := [] }

/-- The full one-cell-wide exclusion zone around a ship (before the
in-bounds clipping `aureole` applies). -/
def ship_halo (s : Ship) : List Cell :=
  s.cells.flatMap (fun c => around_ship.map (fun off => ⟨c.row + off.1, c.column + off.2⟩))

/-- Well-formedness of a 2D symbol grid: `n` rows of length `n`. -/
def rowsWF (m : List (List Sym)) (n : Nat) : Prop :=
  m.length = n ∧ ∀ row ∈ m, row.length = n

/-- Well-formedness of the 2D mask: a `size × size` grid. -/
def maskWF (bd : Board) : Prop := rowsWF bd.mask bd.size

/-- `randint(lo, hi)` fed from the stream `rng` at position `k`. -/
def randint (rng : Nat → Nat) (k lo hi : Nat) : Nat :=
  lo + rng k % (hi + 1 - lo)

/-- One sampling step of `random_place`: `direction = randint(0, 1)`, then
the anchor cell (the coordinate bounds the source uses are swapped relative
to the orientation; embedded as written). -/
def sample_ship (rng : Nat → Nat) (k bigsize ship_length : Nat) : Ship :=
  if randint rng k 0 1 ≠ 0 then
    mkShip ⟨(randint rng (k + 1) 0 bigsize : Int),
            (randint rng (k + 2) 0 (bigsize - ship_length) : Int)⟩
      ship_length true
  else
    mkShip ⟨(randint rng (k + 1) 0 (bigsize - ship_length) : Int),
            (randint rng (k + 2) 0 bigsize : Int)⟩
      ship_length false

/-- The `while True` retry loop of `random_place` for one ship length:
count the attempt, give up past 2000, otherwise sample a direction and an
anchor and try `add_ship`; the budget `attempts` is threaded, not reset.
The structural `fuel` argument is supplied as `2001 - attempts` at the call
site; since the `attempts + 1 > 2000` check fires strictly before the fuel
runs out, and the fuel-0 fallback coincides with the over-budget return,
the function agrees with the unbounded source loop for every `attempts`. -/
def place_one (rng : Nat → Nat) (bigsize ship_length : Nat) :
    Nat → Board → Nat → Nat → Option Board × Nat × Nat
  | 0, _board, k, attempts => (none, k, attempts + 1)
  | fuel + 1, board, k, attempts =>
    if attempts + 1 > 2000 then (none, k, attempts + 1)
    else
      match add_ship board (sample_ship rng k bigsize ship_length) with
      | Except.ok b2 => (some b2, k + 3, attempts + 1)
      | Except.error _ =>
        place_one rng bigsize ship_length fuel board (k + 3) (attempts + 1)

/-- The `for ship_length in ships[begin::]` loop of `random_place`:
on success move to the next length with the same attempt counter; on budget
exhaustion report failure with the board as placed so far; at the end call
`board.begin()` and report success. -/
def place_ships (rng : Nat → Nat) (bigsize : Nat) :
    List Nat → Board → Nat → Nat → Bool × Board × Nat × Nat
  | [], board, k, attempts => (true, Board.begin board, k, attempts)
  | L :: rest, board, k, attempts =>
    match place_one rng bigsize L (2001 - attempts) board k attempts with
    | (none, k2, a2) => (false, board, k2, a2)
    | (some b2, k2, a2) => place_ships rng bigsize rest b2 k2 a2

/-- The fixed ship catalog of `random_place`. -/
def ships_catalog : List Nat := [4, 3, 2, 3, 2, 2, 1, 1, 1, 1]

/-- `begin = 9 - self.size if self.size < 10 else 0`. -/
def begin_index (size : Nat) : Nat := if size < 10 then 9 - size else 0

/-- The catalog slice `ships[begin::]` a placement pass actually attempts. -/
def attempted_catalog (size : Nat) : List Nat :=
  ships_catalog.drop (begin_index size)

/-- `Game.random_place(hide)`: one full placement pass over the catalog on a
fresh board, starting with attempt counter 0.  (`Board(hide, size)` never
raises — see `board_init_never_rejects` — so the fresh board is `mkBoard`.) -/
def random_place (rng : Nat → Nat) (k : Nat) (hide : Bool) (size : Nat) :
    Bool × Board × Nat × Nat :=
  place_ships rng (size - 1) (attempted_catalog size) (mkBoard hide size) k 0

/-- `Game.random_board(hide)`: retry whole passes until one succeeds.  The
source loop is unbounded; `fuel` bounds how many passes we inspect. -/
def random_board_fuel (rng : Nat → Nat) (hide : Bool) (size : Nat) :
    Nat → Nat → Option (Board × Nat)
  | 0, _ => none
  | f + 1, k =>
    match random_place rng k hide size with
    | (true, b, k2, _) => some (b, k2)
    | (false, _, k2, _) => random_board_fuel rng hide size f k2

/-- Modelled from the spec: the catalog the spec says a smaller grid gets —
the reference multiset one 4, two 3s, three 2s, four 1s, "scaled down …
by dropping the longest shapes first, one shape per unit of size
reduction" below the reference size 10. -/
def spec_scaled_catalog (size : Nat) : List Nat :=
  [4, 3, 3, 2, 2, 2, 1, 1, 1, 1].drop (10 - size)

/-- A length-2 ship placed on a fresh 6×6 board; concrete witness input. -/
def addedW5 : Board :=
  match add_ship (mkBoard false 6) (mkShip ⟨0, 0⟩ 2 false) with
  | Except.ok b => b
  | Except.error b => b

/-- A length-1 ship placed on a fresh 5×5 board; concrete witness input. -/
def addedW7 : Board :=
  match add_ship (mkBoard false 5) (mkShip ⟨0, 0⟩ 1 false) with
  | Except.ok b => b
  | Except.error b => b

/-- A 5×5 combat board holding one length-1 ship at the corner whose health
is down to 1; concrete witness input for the shot resolution. -/
def bdC6 : Board :=
  { size := 5, hide := false, count := 0,
    mask := List.replicate 5 (List.replicate 5 Sym.blank),
    occupy_cells := [], ships := [⟨⟨0, 0⟩, 1, false, 1⟩] }

end Sea

namespace XO

/-- A reachable mid-game position (X to move, nobody has won, cells 8 and 9
free), used as a concrete witness input. -/
def bC1 : XBoard :=
  [Mark.X, Mark.O, Mark.X, Mark.O, Mark.X, Mark.X, Mark.O, Mark.E, Mark.E]

/-- Another mid-game position with two free cells, used as a concrete
witness input. -/
def bC3 : XBoard :=
  [Mark.O, Mark.X, Mark.O, Mark.X, Mark.X, Mark.O, Mark.X, Mark.E, Mark.E]

/-- A full board with no three-in-a-row: a drawn terminal position. -/
def drawnBoard : XBoard :=
  [Mark.X, Mark.O, Mark.X, Mark.O, Mark.X, Mark.X, Mark.O, Mark.X, Mark.O]

end XO

namespace XO

theorem mem_get_empty_cells {b : XBoard} {c : Nat} :
    c ∈ get_empty_cells b ↔ 1 ≤ c ∧ c - 1 < b.length ∧ getCell b c = Mark.E := by
  simp only [get_empty_cells, List.mem_map, List.mem_filter, List.mem_range,
    decide_eq_true_eq, getCell]
  constructor
  · rintro ⟨i, ⟨hi, he⟩, rfl⟩
    exact ⟨by omega, by simpa using hi, by simpa using he⟩
  · rintro ⟨h1, h2, h3⟩
    exact ⟨c - 1, ⟨h2, h3⟩, by omega⟩

theorem set_getD_self {α : Type} (d : α) :
    ∀ (l : List α) (i : Nat), i < l.length → l.set i (l.getD i d) = l
  | a :: l, 0, _ => by simp
  | a :: l, i + 1, h => by
    simp only [List.getD_cons_succ, List.set_cons_succ, List.cons.injEq, true_and]
    exact set_getD_self d l i (by simpa using h)

theorem setCell_setCell (b : XBoard) (c : Nat) (m m' : Mark) :
    setCell (setCell b c m) c m' = setCell b c m' := by
  simp [setCell, List.set_set]

theorem setCell_restore {b : XBoard} {c : Nat} (hlt : c - 1 < b.length)
    (he : getCell b c = Mark.E) (m : Mark) :
    setCell (setCell b c m) c Mark.E = b := by
  rw [setCell_setCell]
  have he' : b.getD (c - 1) Mark.E = Mark.E := he
  have := set_getD_self Mark.E b (c - 1) hlt
  rw [he'] at this
  exact this

theorem countP_set_swap {α : Type} (p : α → Bool) :
    ∀ (l : List α) (i : Nat) (a d : α), i < l.length → p (l.getD i d) = true →
      p a = false → (l.set i a).countP p + 1 = l.countP p
  | x :: l, 0, a, d, _, hd, ha => by
    simp only [List.getD_cons_zero] at hd
    simp [List.set_cons_zero, List.countP_cons, hd, ha]
  | x :: l, i + 1, a, d, h, hd, ha => by
    simp only [List.getD_cons_succ] at hd
    have := countP_set_swap p l i a d (by simpa using h) hd ha
    simp only [List.set_cons_succ, List.countP_cons]
    omega

theorem countE_setCell {b : XBoard} {c : Nat} {m : Mark} (hlt : c - 1 < b.length)
    (he : getCell b c = Mark.E) (hm : m ≠ Mark.E) :
    countE (setCell b c m) + 1 = countE b := by
  refine countP_set_swap _ b (c - 1) m Mark.E hlt ?_ ?_
  · simpa [getCell] using he
  · simpa using hm

theorem length_setCell (b : XBoard) (c : Nat) (m : Mark) :
    (setCell b c m).length = b.length := by
  simp [setCell]

/-- Once every recursive call restores its board, the search loop is the pure
fold `tieFold` over the recursive scores, and returns the board unchanged. -/
theorem gbmLoop_eq (rec : XBoard → Bool → Int × Option Nat × XBoard)
    (hrec : ∀ b' p', (rec b' p').2.2 = b') (sign : Bool → Mark) (p : Bool)
    (b : XBoard) :
    ∀ (cells : List Nat) (best : Option Int) (move : Option Nat),
      (∀ c ∈ cells, getCell b c = Mark.E ∧ c - 1 < b.length) →
      gbmLoop rec sign p cells (best, move, b) =
        ((tieFold p (fun c => (rec (setCell b c (sign p)) (!p)).1) cells
          (best, move)).1,
         (tieFold p (fun c => (rec (setCell b c (sign p)) (!p)).1) cells
          (best, move)).2, b)
  | [], best, move, _ => rfl
  | c :: rest, best, move, hcells => by
    obtain ⟨he, hlt⟩ := hcells c (by simp)
    have hrest : ∀ c' ∈ rest, getCell b c' = Mark.E ∧ c' - 1 < b.length :=
      fun c' hc' => hcells c' (by simp [hc'])
    have hb3 : setCell ((rec (setCell b c (sign p)) (!p)).2.2) c Mark.E = b := by
      rw [hrec]; exact setCell_restore hlt he _
    simp only [gbmLoop, hb3, tieFold]
    by_cases hsc : scoreBetter p ((rec (setCell b c (sign p)) (!p)).1) best = true
    · simp only [hsc, if_true]
      exact gbmLoop_eq rec hrec sign p b rest _ _ hrest
    · simp only [Bool.not_eq_true] at hsc
      simp only [hsc, Bool.false_eq_true, if_false]
      exact gbmLoop_eq rec hrec sign p b rest _ _ hrest

/-- Every trial mark placed by the search is undone: the board comes back
from every call exactly as it went in, at every fuel. -/
theorem gbmFuel_restore (sign : Bool → Mark) :
    ∀ (fuel : Nat) (b : XBoard) (p : Bool), (gbmFuel sign fuel b p).2.2 = b
  | 0, b, p => rfl
  | fuel + 1, b, p => by
    simp only [gbmFuel]
    by_cases hw : get_winning b = true
    · simp [hw]
    · simp only [Bool.not_eq_true] at hw
      simp only [hw, Bool.false_eq_true, if_false]
      by_cases hrm : (get_empty_cells b).isEmpty
      · simp [hrm]
      · simp only [hrm, Bool.false_eq_true, if_false]
        have hcells : ∀ c ∈ get_empty_cells b,
            getCell b c = Mark.E ∧ c - 1 < b.length := by
          intro c hc
          have := mem_get_empty_cells.mp hc
          exact ⟨this.2.2, this.2.1⟩
        rw [gbmLoop_eq (gbmFuel sign fuel) (gbmFuel_restore sign fuel) sign p b
          (get_empty_cells b) none none hcells]

theorem scoreBetter_none (p : Bool) (x : Int) : scoreBetter p x none = true := rfl

theorem scoreBetter_irrefl (p : Bool) (x : Int) :
    scoreBetter p x (some x) = false := by
  cases p <;> simp [scoreBetter]

theorem scoreBetter_asymm {p : Bool} {x y : Int}
    (h : scoreBetter p x (some y) = true) : scoreBetter p y (some x) = false := by
  cases p <;> simp [scoreBetter] at h ⊢ <;> omega

theorem scoreBetter_trans {p : Bool} {x y v : Int}
    (h1 : scoreBetter p x (some y) = true) (h2 : scoreBetter p y (some v) = true) :
    scoreBetter p x (some v) = true := by
  cases p <;> simp [scoreBetter] at h1 h2 ⊢ <;> omega

theorem scoreBetter_cross {p : Bool} {x y v : Int}
    (h1 : scoreBetter p x (some v) = false) (h2 : scoreBetter p y (some v) = true) :
    scoreBetter p y (some x) = true := by
  cases p <;> simp [scoreBetter] at h1 h2 ⊢ <;> omega

/-- Running `tieFold` from an established `(score, move)` pair either keeps it
(no later score beats it) or ends at the first later entry that beats it and
is never itself beaten afterwards. -/
theorem tieFold_run (p : Bool) (g : Nat → Int) :
    ∀ (rest : List Nat) (v : Int) (m : Nat),
      (tieFold p g rest (some v, some m) = (some v, some m) ∧
        ∀ c ∈ rest, scoreBetter p (g c) (some v) = false) ∨
      (∃ l₁ c l₂, rest = l₁ ++ c :: l₂ ∧
        tieFold p g rest (some v, some m) = (some (g c), some c) ∧
        scoreBetter p (g c) (some v) = true ∧
        (∀ c' ∈ l₁, scoreBetter p (g c) (some (g c')) = true) ∧
        (∀ c' ∈ l₂, scoreBetter p (g c') (some (g c)) = false))
  | [], v, m => Or.inl ⟨rfl, by simp⟩
  | c₀ :: rs, v, m => by
    by_cases hs : scoreBetter p (g c₀) (some v) = true
    · have hstep : tieFold p g (c₀ :: rs) (some v, some m) =
          tieFold p g rs (some (g c₀), some c₀) := by
        simp [tieFold, hs]
      rcases tieFold_run p g rs (g c₀) c₀ with ⟨heq, hall⟩ | ⟨l₁, c, l₂, hdec, heq, hbeat, hl₁, hl₂⟩
      · refine Or.inr ⟨[], c₀, rs, by simp, by rw [hstep, heq], hs, by simp, hall⟩
      · refine Or.inr ⟨c₀ :: l₁, c, l₂, by simp [hdec], by rw [hstep, heq],
          scoreBetter_trans hbeat hs, ?_, hl₂⟩
        intro c' hc'
        rcases List.mem_cons.mp hc' with rfl | hc'
        · exact hbeat
        · exact hl₁ c' hc'
    · have hs' : scoreBetter p (g c₀) (some v) = false := by
        simpa using hs
      have hstep : tieFold p g (c₀ :: rs) (some v, some m) =
          tieFold p g rs (some v, some m) := by
        simp [tieFold, hs']
      rcases tieFold_run p g rs v m with ⟨heq, hall⟩ | ⟨l₁, c, l₂, hdec, heq, hbeat, hl₁, hl₂⟩
      · refine Or.inl ⟨by rw [hstep, heq], ?_⟩
        intro c' hc'
        rcases List.mem_cons.mp hc' with rfl | hc'
        · exact hs'
        · exact hall c' hc'
      · refine Or.inr ⟨c₀ :: l₁, c, l₂, by simp [hdec], by rw [hstep, heq], hbeat, ?_, hl₂⟩
        intro c' hc'
        rcases List.mem_cons.mp hc' with rfl | hc'
        · exact scoreBetter_cross hs' hbeat
        · exact hl₁ c' hc'

/-- From the `-inf`/`+inf` start, the strict-improvement fold lands on the
first entry attaining the optimum: it beats everything before it, and nothing
in the whole list beats it. -/
theorem tieFold_first_opt (p : Bool) (g : Nat → Int) (cells : List Nat)
    (hne : cells ≠ []) :
    ∃ l₁ c l₂, cells = l₁ ++ c :: l₂ ∧
      tieFold p g cells (none, none) = (some (g c), some c) ∧
      (∀ c' ∈ l₁, scoreBetter p (g c) (some (g c')) = true) ∧
      (∀ c' ∈ cells, scoreBetter p (g c') (some (g c)) = false) := by
  rcases cells with _ | ⟨c₀, rs⟩
  · exact absurd rfl hne
  · have hstep : tieFold p g (c₀ :: rs) (none, none) =
        tieFold p g rs (some (g c₀), some c₀) := by
      simp [tieFold, scoreBetter_none]
    rcases tieFold_run p g rs (g c₀) c₀ with ⟨heq, hall⟩ | ⟨l₁, c, l₂, hdec, heq, hbeat, hl₁, hl₂⟩
    · refine ⟨[], c₀, rs, by simp, by rw [hstep, heq], by simp, ?_⟩
      intro c' hc'
      rcases List.mem_cons.mp hc' with rfl | hc'
      · exact scoreBetter_irrefl p (g c')
      · exact hall c' hc'
    · refine ⟨c₀ :: l₁, c, l₂, by simp [hdec], by rw [hstep, heq], ?_, ?_⟩
      · intro c' hc'
        rcases List.mem_cons.mp hc' with rfl | hc'
        · exact hbeat
        · exact hl₁ c' hc'
      · intro c' hc'
        rcases List.mem_cons.mp hc' with rfl | hc'
        · exact scoreBetter_asymm hbeat
        · have h3 : c' ∈ l₁ ∨ c' = c ∨ c' ∈ l₂ := by simpa [hdec] using hc'
          rcases h3 with h | rfl | h
          · exact scoreBetter_asymm (hl₁ c' h)
          · exact scoreBetter_irrefl p (g c')
          · exact hl₂ c' h

theorem tieFold_congr {p : Bool} {g₁ g₂ : Nat → Int} :
    ∀ (cells : List Nat) (st : Option Int × Option Nat),
      (∀ c ∈ cells, g₁ c = g₂ c) →
      tieFold p g₁ cells st = tieFold p g₂ cells st
  | [], st, _ => rfl
  | c :: rest, (best, move), h => by
    have hc : g₁ c = g₂ c := h c (by simp)
    have hrest : ∀ c' ∈ rest, g₁ c' = g₂ c' := fun c' hc' => h c' (by simp [hc'])
    simp only [tieFold, hc]
    by_cases hsc : scoreBetter p (g₂ c) best = true
    · simp only [hsc, if_true]
      exact tieFold_congr rest _ hrest
    · simp only [Bool.not_eq_true] at hsc
      simp only [hsc, Bool.false_eq_true, if_false]
      exact tieFold_congr rest _ hrest

theorem get_empty_cells_sorted (b : XBoard) :
    (get_empty_cells b).Pairwise (· < ·) := by
  unfold get_empty_cells
  exact List.Pairwise.map _ (fun a c (h : a < c) => by omega)
    (List.Pairwise.filter _ (List.pairwise_lt_range _))

/-- The non-terminal case of `get_best_move`, rewritten through the pure fold
over the recursive scores at the recursion's own fuel. -/
theorem get_best_move_eq_tieFold_raw (sign : Bool → Mark) (b : XBoard) (p : Bool)
    (hw : get_winning b = false) (hne : get_empty_cells b ≠ []) :
    get_best_move sign b p =
      ((tieFold p (fun c => (gbmFuel sign (countE b) (setCell b c (sign p)) (!p)).1)
         (get_empty_cells b) (none, none)).1.getD 0,
       (tieFold p (fun c => (gbmFuel sign (countE b) (setCell b c (sign p)) (!p)).1)
         (get_empty_cells b) (none, none)).2, b) := by
  have hcells : ∀ c ∈ get_empty_cells b, getCell b c = Mark.E ∧ c - 1 < b.length := by
    intro c hc
    have := mem_get_empty_cells.mp hc
    exact ⟨this.2.2, this.2.1⟩
  unfold get_best_move
  have hrm : (get_empty_cells b).isEmpty = false := by
    simpa [List.isEmpty_iff] using hne
  simp only [gbmFuel, hw, Bool.false_eq_true, if_false, hrm]
  rw [gbmLoop_eq (gbmFuel sign (countE b)) (gbmFuel_restore sign (countE b)) sign p b
    (get_empty_cells b) none none hcells]

/-- As `get_best_move_eq_tieFold_raw`, but with the recursive scores
recognized as the child minimax values: when neither sign is blank, filling
an empty cell removes exactly one blank, so the inner fuel `countE b`
is precisely what `get_best_move` itself uses on the child board. -/
theorem get_best_move_eq_tieFold (sign : Bool → Mark) (b : XBoard) (p : Bool)
    (hsign : ∀ q, sign q ≠ Mark.E) (hw : get_winning b = false)
    (hne : get_empty_cells b ≠ []) :
    get_best_move sign b p =
      ((tieFold p (child_value sign b p) (get_empty_cells b) (none, none)).1.getD 0,
       (tieFold p (child_value sign b p) (get_empty_cells b) (none, none)).2, b) := by
  have hfc : ∀ c ∈ get_empty_cells b,
      (gbmFuel sign (countE b) (setCell b c (sign p)) (!p)).1 =
        child_value sign b p c := by
    intro c hc
    have hmem := mem_get_empty_cells.mp hc
    have hcnt : countE (setCell b c (sign p)) + 1 = countE b :=
      countE_setCell hmem.2.1 hmem.2.2 (hsign p)
    unfold child_value get_best_move
    rw [← hcnt]
  rw [get_best_move_eq_tieFold_raw sign b p hw hne,
    tieFold_congr (get_empty_cells b) (none, none) hfc]

end XO

/-- C1: in any position where `get_winning` is false and at least one cell is
empty, `get_best_move` (for either value of the side flag, and for any sign
assignment) returns a move, and that move is one of the empty cells of the
input board — never an occupied cell. -/
theorem search_move_is_empty_cell (sign : Bool → XO.Mark) (b : XO.XBoard)
    (p : Bool) (hw : XO.get_winning b = false)
    (hne : XO.get_empty_cells b ≠ []) :
    ∃ c, (XO.get_best_move sign b p).2.1 = some c ∧ c ∈ XO.get_empty_cells b := by
  rw [XO.get_best_move_eq_tieFold_raw sign b p hw hne]
  obtain ⟨l₁, c, l₂, hdec, heq, -, -⟩ :=
    XO.tieFold_first_opt p
      (fun c => (XO.gbmFuel sign (XO.countE b) (XO.setCell b c (sign p)) (!p)).1)
      (XO.get_empty_cells b) hne
  exact ⟨c, by rw [heq], by rw [hdec]; simp⟩

theorem search_move_is_empty_cell_witness :
    XO.get_winning XO.bC1 = false ∧ XO.get_empty_cells XO.bC1 ≠ [] ∧
      ∃ c, (XO.get_best_move XO.signStd XO.bC1 true).2.1 = some c ∧
        c ∈ XO.get_empty_cells XO.bC1 :=
  ⟨by decide, by decide,
   search_move_is_empty_cell XO.signStd XO.bC1 true (by decide) (by decide)⟩

/-- C2: `get_best_move` hands its board back exactly as it received it, for
every board, side flag and sign assignment: every trial mark placed during
the recursive search is undone before the call returns, so no mutation
escapes to a sibling branch or to the caller. -/
theorem search_restores_board (sign : Bool → XO.Mark) (b : XO.XBoard) (p : Bool) :
    (XO.get_best_move sign b p).2.2 = b :=
  XO.gbmFuel_restore sign (XO.countE b + 1) b p

/-- C3: the empty-cell list is scanned in ascending cell order, and the move
returned is the first cell of that list attaining the optimal child minimax
value for the side to move: no empty cell scores strictly better than it,
and it scores strictly better than every cell before it (so ties are broken
only by iteration order). -/
theorem search_tie_break_first_optimal (sign : Bool → XO.Mark)
    (hsign : ∀ q, sign q ≠ XO.Mark.E) (b : XO.XBoard) (p : Bool)
    (hw : XO.get_winning b = false) (hne : XO.get_empty_cells b ≠ []) :
    (XO.get_empty_cells b).Pairwise (· < ·) ∧
      ∃ l₁ c l₂, XO.get_empty_cells b = l₁ ++ c :: l₂ ∧
        (XO.get_best_move sign b p).2.1 = some c ∧
        (∀ c' ∈ XO.get_empty_cells b,
          XO.scoreBetter p (XO.child_value sign b p c')
            (some (XO.child_value sign b p c)) = false) ∧
        (∀ c' ∈ l₁,
          XO.scoreBetter p (XO.child_value sign b p c)
            (some (XO.child_value sign b p c')) = true) := by
  refine ⟨XO.get_empty_cells_sorted b, ?_⟩
  obtain ⟨l₁, c, l₂, hdec, heq, hl₁, hall⟩ :=
    XO.tieFold_first_opt p (XO.child_value sign b p) (XO.get_empty_cells b) hne
  refine ⟨l₁, c, l₂, hdec, ?_, hall, hl₁⟩
  rw [XO.get_best_move_eq_tieFold sign b p hsign hw hne, heq]

theorem search_tie_break_first_optimal_witness :
    (∀ q, XO.signStd q ≠ XO.Mark.E) ∧ XO.get_winning XO.bC3 = false ∧
      XO.get_empty_cells XO.bC3 ≠ [] ∧
      ((XO.get_empty_cells XO.bC3).Pairwise (· < ·) ∧
        ∃ l₁ c l₂, XO.get_empty_cells XO.bC3 = l₁ ++ c :: l₂ ∧
          (XO.get_best_move XO.signStd XO.bC3 true).2.1 = some c ∧
          (∀ c' ∈ XO.get_empty_cells XO.bC3,
            XO.scoreBetter true (XO.child_value XO.signStd XO.bC3 true c')
              (some (XO.child_value XO.signStd XO.bC3 true c)) = false) ∧
          (∀ c' ∈ l₁,
            XO.scoreBetter true (XO.child_value XO.signStd XO.bC3 true c)
              (some (XO.child_value XO.signStd XO.bC3 true c')) = true)) :=
  ⟨by decide, by decide, by decide,
   search_tie_break_first_optimal XO.signStd (by decide) XO.bC3 true
     (by decide) (by decide)⟩

/-- C4 counterexample: on a full drawn board (no empty cell, no owned line)
the detector `get_winning` reports `false`, so it does not report "no empty
cell remains" as terminal; draw detection is not part of this function. -/
theorem get_winning_ignores_draw_counterexample :
    XO.get_empty_cells XO.drawnBoard = [] ∧
      XO.get_winning XO.drawnBoard = false := by
  constructor
  · decide
  · decide

/-- C4 as amended: `get_winning` reports `true` exactly when one of the 8
fixed triples (3 rows, 3 columns, 2 diagonals) is fully owned by a single
side; a board with no empty cell but no owned line is reported `false`
(the callers detect draws separately by counting empty cells). -/
theorem get_winning_iff_line_owned (b : XO.XBoard) :
    XO.get_winning b = true ↔
      ∃ l ∈ XO.win_lines, ∃ m, (m = XO.Mark.X ∨ m = XO.Mark.O) ∧
        XO.getCell b l.1 = m ∧ XO.getCell b l.2.1 = m ∧ XO.getCell b l.2.2 = m := by
  simp only [XO.get_winning, List.any_eq_true, Bool.or_eq_true, XO.line_owned,
    Bool.and_eq_true, decide_eq_true_eq]
  constructor
  · rintro ⟨l, hl, ⟨⟨h1, h2⟩, h3⟩ | ⟨⟨h1, h2⟩, h3⟩⟩
    · exact ⟨l, hl, XO.Mark.X, Or.inl rfl, h1, h2, h3⟩
    · exact ⟨l, hl, XO.Mark.O, Or.inr rfl, h1, h2, h3⟩
  · rintro ⟨l, hl, m, hm | hm, h1, h2, h3⟩ <;> subst hm
    · exact ⟨l, hl, Or.inl ⟨⟨h1, h2⟩, h3⟩⟩
    · exact ⟨l, hl, Or.inr ⟨⟨h1, h2⟩, h3⟩⟩

namespace Sea

theorem outside_board_false_iff {bd : Board} {cell : Cell} :
    outside_board bd cell = false ↔
      0 ≤ cell.row ∧ cell.row < (bd.size : Int) ∧
      0 ≤ cell.column ∧ cell.column < (bd.size : Int) := by
  simp [outside_board, and_assoc]

theorem outside_board_congr {b1 b2 : Board} (h : b1.size = b2.size) (cell : Cell) :
    outside_board b1 cell = outside_board b2 cell := by
  simp [outside_board, h]

theorem getD_set_self_lem {α : Type} (l : List α) (i : Nat) (a d : α)
    (h : i < l.length) : (l.set i a).getD i d = a := by
  simp [List.getD_eq_getElem?_getD, List.getElem?_set_self h]

theorem getD_set_ne_lem {α : Type} (l : List α) {i j : Nat} (a d : α)
    (h : i ≠ j) : (l.set i a).getD j d = l.getD j d := by
  simp [List.getD_eq_getElem?_getD, List.getElem?_set_ne h]

theorem length_setMask (m : List (List Sym)) (r c : Int) (s : Sym) :
    (setMask m r c s).length = m.length := by
  simp [setMask]

theorem rowsWF_setMask {m : List (List Sym)} {n : Nat} (h : rowsWF m n)
    (r c : Int) (s : Sym) : rowsWF (setMask m r c s) n := by
  obtain ⟨hlen, hrows⟩ := h
  by_cases hr : r.toNat < m.length
  · refine ⟨by simp [setMask, hlen], ?_⟩
    intro row hrow
    rcases List.mem_or_eq_of_mem_set hrow with hrow | rfl
    · exact hrows row hrow
    · have hget : m.getD r.toNat [] = m[r.toNat] := by
        simp [List.getD_eq_getElem?_getD, List.getElem?_eq_getElem hr]
      rw [List.length_set, hget]
      exact hrows _ (List.getElem_mem hr)
  · have hnoop : setMask m r c s = m := by
      unfold setMask
      exact List.set_eq_of_length_le (by omega)
    rw [hnoop]
    exact ⟨hlen, hrows⟩

theorem getMask_setMask_self {m : List (List Sym)} {n : Nat} {r c : Int}
    (h : rowsWF m n) (hr : r.toNat < n) (hc : c.toNat < n) (s : Sym) :
    getMask (setMask m r c s) r c = s := by
  obtain ⟨hlen, hrows⟩ := h
  have hr' : r.toNat < m.length := by omega
  have hget : m.getD r.toNat [] = m[r.toNat] := by
    simp [List.getD_eq_getElem?_getD, List.getElem?_eq_getElem hr']
  have hrowlen : m[r.toNat].length = n := hrows _ (List.getElem_mem hr')
  unfold getMask setMask
  rw [getD_set_self_lem _ _ _ _ hr', hget,
    getD_set_self_lem _ _ _ _ (by omega)]

theorem getMask_setMask_ne {m : List (List Sym)} {r1 c1 r2 c2 : Int}
    (h : r1.toNat ≠ r2.toNat ∨ c1.toNat ≠ c2.toNat) (s : Sym) :
    getMask (setMask m r2 c2 s) r1 c1 = getMask m r1 c1 := by
  unfold getMask setMask
  by_cases hr : r1.toNat = r2.toNat
  · have hc : c1.toNat ≠ c2.toNat := by
      rcases h with h | h
      · exact absurd hr h
      · exact h
    by_cases hlen : r2.toNat < m.length
    · rw [hr, getD_set_self_lem _ _ _ _ hlen,
        getD_set_ne_lem _ _ _ (fun hh => hc (hh.symm))]
    · rw [List.set_eq_of_length_le (by omega), hr]
  · rw [getD_set_ne_lem _ _ _ (fun hh => hr (hh.symm))]

theorem mkBoard_maskWF (hide : Bool) (size : Nat) : maskWF (mkBoard hide size) := by
  refine ⟨by simp [mkBoard], ?_⟩
  intro row hrow
  simp only [mkBoard] at hrow
  rw [(List.mem_replicate.mp hrow).2]
  simp [mkBoard]

theorem aureole_around_fields (v : Bool) (c : Cell) :
    ∀ (offs : List (Int × Int)) (b : Board),
      (aureole_around v c offs b).size = b.size ∧
      (aureole_around v c offs b).hide = b.hide ∧
      (aureole_around v c offs b).ships = b.ships ∧
      (aureole_around v c offs b).count = b.count
  | [], _ => ⟨rfl, rfl, rfl, rfl⟩
  | off :: rest, b => by
    simp only [aureole_around]
    by_cases hcond : outside_board b ⟨c.row + off.1, c.column + off.2⟩ = false ∧
        (⟨c.row + off.1, c.column + off.2⟩ : Cell) ∉ b.occupy_cells
    · rw [if_pos hcond]
      exact aureole_around_fields v c rest _
    · rw [if_neg hcond]
      exact aureole_around_fields v c rest b

theorem aureole_around_occupy_ext (v : Bool) (c : Cell) :
    ∀ (offs : List (Int × Int)) (b : Board),
      ∃ t, (aureole_around v c offs b).occupy_cells = b.occupy_cells ++ t ∧
        ∀ x ∈ t, ∃ off ∈ offs, x = Cell.mk (c.row + off.1) (c.column + off.2)
  | [], b => ⟨[], by simp [aureole_around], by simp⟩
  | off :: rest, b => by
    simp only [aureole_around]
    by_cases hcond : outside_board b ⟨c.row + off.1, c.column + off.2⟩ = false ∧
        (⟨c.row + off.1, c.column + off.2⟩ : Cell) ∉ b.occupy_cells
    · rw [if_pos hcond]
      obtain ⟨t, ht, hmem⟩ := aureole_around_occupy_ext v c rest
        { b with
          mask := if v then
              setMask b.mask (c.row + off.1) (c.column + off.2) Sym.dotS
            else b.mask,
          occupy_cells := b.occupy_cells ++ [⟨c.row + off.1, c.column + off.2⟩] }
      refine ⟨⟨c.row + off.1, c.column + off.2⟩ :: t, ?_, ?_⟩
      · rw [ht]
        simp
      · intro x hx
        rcases List.mem_cons.mp hx with rfl | hx
        · exact ⟨off, by simp⟩
        · obtain ⟨off2, hoff2, hx2⟩ := hmem x hx
          exact ⟨off2, by simp [hoff2], hx2⟩
    · rw [if_neg hcond]
      obtain ⟨t, ht, hmem⟩ := aureole_around_occupy_ext v c rest b
      refine ⟨t, ht, ?_⟩
      intro x hx
      obtain ⟨off2, hoff2, hx2⟩ := hmem x hx
      exact ⟨off2, by simp [hoff2], hx2⟩

theorem aureole_around_mono (v : Bool) (c : Cell) (offs : List (Int × Int))
    (b : Board) {x : Cell} (hx : x ∈ b.occupy_cells) :
    x ∈ (aureole_around v c offs b).occupy_cells := by
  obtain ⟨t, ht, -⟩ := aureole_around_occupy_ext v c offs b
  rw [ht]
  exact List.mem_append_left t hx

theorem aureole_around_mem (v : Bool) (c : Cell) :
    ∀ (offs : List (Int × Int)) (b : Board) (off : Int × Int), off ∈ offs →
      outside_board b ⟨c.row + off.1, c.column + off.2⟩ = false →
      (⟨c.row + off.1, c.column + off.2⟩ : Cell) ∈
        (aureole_around v c offs b).occupy_cells
  | [], _, off, hoff, _ => absurd hoff (by simp)
  | off0 :: rest, b, off, hoff, hin => by
    simp only [aureole_around]
    by_cases hcond : outside_board b ⟨c.row + off0.1, c.column + off0.2⟩ = false ∧
        (⟨c.row + off0.1, c.column + off0.2⟩ : Cell) ∉ b.occupy_cells
    · rw [if_pos hcond]
      rcases List.mem_cons.mp hoff with rfl | hoff
      · exact aureole_around_mono v c rest _ (by simp)
      · exact aureole_around_mem v c rest _ off hoff hin
    · rw [if_neg hcond]
      rcases List.mem_cons.mp hoff with rfl | hoff
      · have hinb : (⟨c.row + off.1, c.column + off.2⟩ : Cell) ∈ b.occupy_cells := by
          by_contra hno
          exact hcond ⟨hin, hno⟩
        exact aureole_around_mono v c rest b hinb
      · exact aureole_around_mem v c rest b off hoff hin

theorem aureole_cells_fields (v : Bool) :
    ∀ (cells : List Cell) (b : Board),
      (aureole_cells v cells b).size = b.size ∧
      (aureole_cells v cells b).hide = b.hide ∧
      (aureole_cells v cells b).ships = b.ships ∧
      (aureole_cells v cells b).count = b.count
  | [], _ => ⟨rfl, rfl, rfl, rfl⟩
  | c :: rest, b => by
    have h1 := aureole_around_fields v c around_ship b
    have h2 := aureole_cells_fields v rest (aureole_around v c around_ship b)
    simp only [aureole_cells]
    exact ⟨h2.1.trans h1.1, h2.2.1.trans h1.2.1, h2.2.2.1.trans h1.2.2.1,
      h2.2.2.2.trans h1.2.2.2⟩

theorem aureole_cells_occupy_ext (v : Bool) :
    ∀ (cells : List Cell) (b : Board),
      ∃ t, (aureole_cells v cells b).occupy_cells = b.occupy_cells ++ t ∧
        ∀ x ∈ t, ∃ cc ∈ cells, ∃ off ∈ around_ship,
          x = Cell.mk (cc.row + off.1) (cc.column + off.2)
  | [], b => ⟨[], by simp [aureole_cells], by simp⟩
  | c :: rest, b => by
    obtain ⟨t1, ht1, hmem1⟩ := aureole_around_occupy_ext v c around_ship b
    obtain ⟨t2, ht2, hmem2⟩ :=
      aureole_cells_occupy_ext v rest (aureole_around v c around_ship b)
    refine ⟨t1 ++ t2, ?_, ?_⟩
    · simp only [aureole_cells]
      rw [ht2, ht1, List.append_assoc]
    · intro x hx
      rcases List.mem_append.mp hx with hx | hx
      · obtain ⟨off, hoff, hxe⟩ := hmem1 x hx
        exact ⟨c, by simp, off, hoff, hxe⟩
      · obtain ⟨cc, hcc, off, hoff, hxe⟩ := hmem2 x hx
        exact ⟨cc, by simp [hcc], off, hoff, hxe⟩

theorem aureole_cells_mono (v : Bool) (cells : List Cell) (b : Board) {x : Cell}
    (hx : x ∈ b.occupy_cells) : x ∈ (aureole_cells v cells b).occupy_cells := by
  obtain ⟨t, ht, -⟩ := aureole_cells_occupy_ext v cells b
  rw [ht]
  exact List.mem_append_left t hx

theorem aureole_cells_mem (v : Bool) :
    ∀ (cells : List Cell) (b : Board) (cc : Cell) (off : Int × Int),
      cc ∈ cells → off ∈ around_ship →
      outside_board b ⟨cc.row + off.1, cc.column + off.2⟩ = false →
      (⟨cc.row + off.1, cc.column + off.2⟩ : Cell) ∈
        (aureole_cells v cells b).occupy_cells
  | [], _, _, _, hcc, _, _ => absurd hcc (by simp)
  | c :: rest, b, cc, off, hcc, hoff, hin => by
    simp only [aureole_cells]
    rcases List.mem_cons.mp hcc with rfl | hcc
    · exact aureole_cells_mono v rest _
        (aureole_around_mem v cc around_ship b off hoff hin)
    · have hsize : (aureole_around v c around_ship b).size = b.size :=
        (aureole_around_fields v c around_ship b).1
      have hin2 : outside_board (aureole_around v c around_ship b)
          ⟨cc.row + off.1, cc.column + off.2⟩ = false := by
        rw [outside_board_congr hsize]
        exact hin
      exact aureole_cells_mem v rest _ cc off hcc hoff hin2

theorem cells_toNat_ne {bd : Board} {a b : Cell} (ha : outside_board bd a = false)
    (hb : outside_board bd b = false) (hne : a ≠ b) :
    a.row.toNat ≠ b.row.toNat ∨ a.column.toNat ≠ b.column.toNat := by
  obtain ⟨ha1, ha2, ha3, ha4⟩ := outside_board_false_iff.mp ha
  obtain ⟨hb1, hb2, hb3, hb4⟩ := outside_board_false_iff.mp hb
  by_contra hcon
  push_neg at hcon
  refine hne ?_
  obtain ⟨a1, a2⟩ := a
  obtain ⟨b1, b2⟩ := b
  simp only [Cell.mk.injEq]
  simp only at ha1 ha2 ha3 ha4 hb1 hb2 hb3 hb4 hcon
  omega

theorem aureole_around_rowsWF (v : Bool) (c : Cell) :
    ∀ (offs : List (Int × Int)) (b : Board) (n : Nat),
      rowsWF b.mask n → rowsWF (aureole_around v c offs b).mask n
  | [], _, _, h => h
  | off :: rest, b, n, h => by
    simp only [aureole_around]
    by_cases hcond : outside_board b ⟨c.row + off.1, c.column + off.2⟩ = false ∧
        (⟨c.row + off.1, c.column + off.2⟩ : Cell) ∉ b.occupy_cells
    · rw [if_pos hcond]
      refine aureole_around_rowsWF v c rest _ n ?_
      rcases v with - | -
      · exact h
      · exact rowsWF_setMask h _ _ _
    · rw [if_neg hcond]
      exact aureole_around_rowsWF v c rest b n h

theorem aureole_around_mask_preserve (v : Bool) (c : Cell) :
    ∀ (offs : List (Int × Int)) (b : Board) (hc : Cell),
      hc ∈ b.occupy_cells → outside_board b hc = false →
      getMask (aureole_around v c offs b).mask hc.row hc.column =
        getMask b.mask hc.row hc.column
  | [], _, _, _, _ => rfl
  | off :: rest, b, hc, hmem, hin => by
    simp only [aureole_around]
    by_cases hcond : outside_board b ⟨c.row + off.1, c.column + off.2⟩ = false ∧
        (⟨c.row + off.1, c.column + off.2⟩ : Cell) ∉ b.occupy_cells
    · rw [if_pos hcond]
      have hne : hc ≠ (⟨c.row + off.1, c.column + off.2⟩ : Cell) := by
        intro he
        exact hcond.2 (he ▸ hmem)
      have hstep : getMask
          (if v then setMask b.mask (c.row + off.1) (c.column + off.2) Sym.dotS
           else b.mask) hc.row hc.column = getMask b.mask hc.row hc.column := by
        rcases v with - | -
        · rfl
        · simp only [if_true]
          exact getMask_setMask_ne (cells_toNat_ne hin hcond.1 hne) _
      have hrec := aureole_around_mask_preserve v c rest
        { b with
          mask := if v then
              setMask b.mask (c.row + off.1) (c.column + off.2) Sym.dotS
            else b.mask,
          occupy_cells := b.occupy_cells ++ [⟨c.row + off.1, c.column + off.2⟩] }
        hc (by simp [hmem]) hin
      exact hrec.trans hstep
    · rw [if_neg hcond]
      exact aureole_around_mask_preserve v c rest b hc hmem hin

theorem aureole_cells_mask_preserve (v : Bool) :
    ∀ (cells : List Cell) (b : Board) (hc : Cell),
      hc ∈ b.occupy_cells → outside_board b hc = false →
      getMask (aureole_cells v cells b).mask hc.row hc.column =
        getMask b.mask hc.row hc.column
  | [], _, _, _, _ => rfl
  | c :: rest, b, hc, hmem, hin => by
    simp only [aureole_cells]
    have hsize : (aureole_around v c around_ship b).size = b.size :=
      (aureole_around_fields v c around_ship b).1
    rw [aureole_cells_mask_preserve v rest _ hc
      (aureole_around_mono v c around_ship b hmem)
      (by rw [outside_board_congr hsize]; exact hin)]
    exact aureole_around_mask_preserve v c around_ship b hc hmem hin

theorem aureole_around_dot (c : Cell) :
    ∀ (offs : List (Int × Int)) (b : Board) (hc : Cell),
      outside_board b hc = false → hc ∉ b.occupy_cells →
      (∃ off ∈ offs, hc = Cell.mk (c.row + off.1) (c.column + off.2)) →
      rowsWF b.mask b.size →
      hc ∈ (aureole_around true c offs b).occupy_cells ∧
        getMask (aureole_around true c offs b).mask hc.row hc.column = Sym.dotS
  | [], _, _, _, _, hex, _ => absurd hex (by simp)
  | off :: rest, b, hc, hin, hno, hex, hwf => by
    simp only [aureole_around]
    by_cases heq : hc = (⟨c.row + off.1, c.column + off.2⟩ : Cell)
    · have hcond : outside_board b ⟨c.row + off.1, c.column + off.2⟩ = false ∧
          (⟨c.row + off.1, c.column + off.2⟩ : Cell) ∉ b.occupy_cells := by
        refine ⟨heq ▸ hin, heq ▸ hno⟩
      rw [if_pos hcond]
      obtain ⟨h1, h2, h3, h4⟩ := outside_board_false_iff.mp hin
      have hdot : getMask
          (setMask b.mask (c.row + off.1) (c.column + off.2) Sym.dotS)
          hc.row hc.column = Sym.dotS := by
        rw [heq]
        exact getMask_setMask_self hwf (by rw [heq] at h1 h2; simp only at h1 h2; omega)
          (by rw [heq] at h3 h4; simp only at h3 h4; omega) _
      have hmem1 : hc ∈ (b.occupy_cells ++
          [(⟨c.row + off.1, c.column + off.2⟩ : Cell)]) := by
        rw [heq]
        simp
      have hrec := aureole_around_mask_preserve true c rest
        { b with
          mask := if true then
              setMask b.mask (c.row + off.1) (c.column + off.2) Sym.dotS
            else b.mask,
          occupy_cells := b.occupy_cells ++ [⟨c.row + off.1, c.column + off.2⟩] }
        hc hmem1 hin
      constructor
      · exact aureole_around_mono true c rest _ hmem1
      · exact hrec.trans (by simpa using hdot)
    · have hex2 : ∃ off2 ∈ rest, hc = Cell.mk (c.row + off2.1) (c.column + off2.2) := by
        obtain ⟨off2, hoff2, he2⟩ := hex
        rcases List.mem_cons.mp hoff2 with rfl | hoff2
        · exact absurd he2 heq
        · exact ⟨off2, hoff2, he2⟩
      by_cases hcond : outside_board b ⟨c.row + off.1, c.column + off.2⟩ = false ∧
          (⟨c.row + off.1, c.column + off.2⟩ : Cell) ∉ b.occupy_cells
      · rw [if_pos hcond]
        refine aureole_around_dot c rest _ hc hin ?_ hex2 ?_
        · intro hmem
          rcases List.mem_append.mp hmem with hmem | hmem
          · exact hno hmem
          · exact heq (by simpa using hmem)
        · exact rowsWF_setMask hwf _ _ _
      · rw [if_neg hcond]
        exact aureole_around_dot c rest b hc hin hno hex2 hwf

theorem aureole_cells_dot :
    ∀ (cells : List Cell) (b : Board) (hc : Cell),
      outside_board b hc = false → hc ∉ b.occupy_cells →
      (∃ cc ∈ cells, ∃ off ∈ around_ship,
        hc = Cell.mk (cc.row + off.1) (cc.column + off.2)) →
      rowsWF b.mask b.size →
      hc ∈ (aureole_cells true cells b).occupy_cells ∧
        getMask (aureole_cells true cells b).mask hc.row hc.column = Sym.dotS
  | [], _, _, _, _, hex, _ => absurd hex (by simp)
  | c :: rest, b, hc, hin, hno, hex, hwf => by
    simp only [aureole_cells]
    have hsize : (aureole_around true c around_ship b).size = b.size :=
      (aureole_around_fields true c around_ship b).1
    have hin2 : outside_board (aureole_around true c around_ship b) hc = false := by
      rw [outside_board_congr hsize]
      exact hin
    by_cases hex1 : ∃ off ∈ around_ship, hc = Cell.mk (c.row + off.1) (c.column + off.2)
    · obtain ⟨hmem1, hdot1⟩ := aureole_around_dot c around_ship b hc hin hno hex1 hwf
      constructor
      · exact aureole_cells_mono true rest _ hmem1
      · rw [aureole_cells_mask_preserve true rest _ hc hmem1 hin2]
        exact hdot1
    · have hex2 : ∃ cc ∈ rest, ∃ off ∈ around_ship,
          hc = Cell.mk (cc.row + off.1) (cc.column + off.2) := by
        obtain ⟨cc, hcc, off, hoff, he⟩ := hex
        rcases List.mem_cons.mp hcc with rfl | hcc
        · exact absurd ⟨off, hoff, he⟩ hex1
        · exact ⟨cc, hcc, off, hoff, he⟩
      have hno2 : hc ∉ (aureole_around true c around_ship b).occupy_cells := by
        intro hmem
        obtain ⟨t, ht, htmem⟩ := aureole_around_occupy_ext true c around_ship b
        rw [ht] at hmem
        rcases List.mem_append.mp hmem with hmem | hmem
        · exact hno hmem
        · obtain ⟨off, hoff, he⟩ := htmem hc hmem
          exact hex1 ⟨off, hoff, he⟩
      have hwf2 : rowsWF (aureole_around true c around_ship b).mask
          (aureole_around true c around_ship b).size := by
        rw [hsize]
        exact aureole_around_rowsWF true c around_ship b b.size hwf
      exact aureole_cells_dot rest _ hc hin2 hno2 hex2 hwf2

theorem place_cells_occupy (sign : Sym) :
    ∀ (cells : List Cell) (b : Board),
      (place_cells sign cells b).occupy_cells = b.occupy_cells ++ cells
  | [], b => by simp [place_cells]
  | cell :: rest, b => by
    simp only [place_cells]
    rw [place_cells_occupy sign rest]
    simp

theorem place_cells_fields (sign : Sym) :
    ∀ (cells : List Cell) (b : Board),
      (place_cells sign cells b).size = b.size ∧
      (place_cells sign cells b).hide = b.hide ∧
      (place_cells sign cells b).ships = b.ships ∧
      (place_cells sign cells b).count = b.count
  | [], _ => ⟨rfl, rfl, rfl, rfl⟩
  | _cell :: rest, _b => place_cells_fields sign rest _

theorem add_ship_ok_iff (bd : Board) (ship : Ship) :
    (∃ bd', add_ship bd ship = Except.ok bd') ↔
      ∀ c ∈ ship.cells, outside_board bd c = false ∧ c ∉ bd.occupy_cells := by
  by_cases hany : (ship.cells.any (fun cell =>
      outside_board bd cell || decide (cell ∈ bd.occupy_cells))) = true
  · simp only [add_ship, hany, if_true]
    constructor
    · rintro ⟨bd', h⟩
      cases h
    · intro hall
      obtain ⟨c, hc, hviol⟩ := List.any_eq_true.mp hany
      obtain ⟨h1, h2⟩ := hall c hc
      have hor : outside_board bd c = true ∨ c ∈ bd.occupy_cells := by
        simpa using hviol
      rcases hor with hviol2 | hviol2
      · rw [h1] at hviol2
        cases hviol2
      · exact absurd hviol2 h2
  · simp only [add_ship, hany, Bool.false_eq_true, if_false]
    have hnone : ∀ c ∈ ship.cells,
        ¬(outside_board bd c || decide (c ∈ bd.occupy_cells)) = true := by
      intro c hc hx
      exact hany (List.any_eq_true.mpr ⟨c, hc, hx⟩)
    have hall : ∀ c ∈ ship.cells,
        outside_board bd c = false ∧ c ∉ bd.occupy_cells := by
      intro c hc
      have hfalse : (outside_board bd c || decide (c ∈ bd.occupy_cells)) = false := by
        cases hx : (outside_board bd c || decide (c ∈ bd.occupy_cells)) with
        | false => rfl
        | true => exact absurd hx (hnone c hc)
      have := Bool.or_eq_false_iff.mp hfalse
      exact ⟨this.1, of_decide_eq_false this.2⟩
    exact ⟨fun _ => hall, fun _ => ⟨_, rfl⟩⟩

theorem add_ship_error_unchanged {bd : Board} {ship : Ship} {bd' : Board}
    (h : add_ship bd ship = Except.error bd') : bd' = bd := by
  by_cases hany : (ship.cells.any (fun cell =>
      outside_board bd cell || decide (cell ∈ bd.occupy_cells))) = true
  · simp only [add_ship, hany, if_true] at h
    cases h
    rfl
  · simp only [add_ship, hany, Bool.false_eq_true, if_false] at h
    cases h

theorem add_ship_ok_dest {bd : Board} {ship : Ship} {bd' : Board}
    (h : add_ship bd ship = Except.ok bd') :
    bd' = aureole
      { place_cells (if bd.hide then Sym.blank else Sym.shipS) ship.cells bd with
        ships := (place_cells (if bd.hide then Sym.blank else Sym.shipS)
          ship.cells bd).ships ++ [ship] } ship false := by
  by_cases hany : (ship.cells.any (fun cell =>
      outside_board bd cell || decide (cell ∈ bd.occupy_cells))) = true
  · simp only [add_ship, hany, if_true] at h
    cases h
  · simp only [add_ship, hany, Bool.false_eq_true, if_false] at h
    cases h
    rfl

theorem add_ship_ok_commits {bd : Board} {ship : Ship} {bd' : Board}
    (h : add_ship bd ship = Except.ok bd') :
    (∀ c ∈ ship.cells, c ∈ bd'.occupy_cells) ∧
      bd'.ships = bd.ships ++ [ship] ∧
      (∃ t, bd'.occupy_cells = bd.occupy_cells ++ ship.cells ++ t) := by
  rw [add_ship_ok_dest h]
  have hocc2 : ({ place_cells (if bd.hide then Sym.blank else Sym.shipS)
        ship.cells bd with
      ships := (place_cells (if bd.hide then Sym.blank else Sym.shipS)
        ship.cells bd).ships ++ [ship] } : Board).occupy_cells =
      bd.occupy_cells ++ ship.cells :=
    place_cells_occupy _ ship.cells bd
  obtain ⟨t, ht, -⟩ := aureole_cells_occupy_ext false ship.cells
    { place_cells (if bd.hide then Sym.blank else Sym.shipS) ship.cells bd with
      ships := (place_cells (if bd.hide then Sym.blank else Sym.shipS)
        ship.cells bd).ships ++ [ship] }
  refine ⟨?_, ?_, ⟨t, ?_⟩⟩
  · intro c hc
    refine aureole_cells_mono false ship.cells _ ?_
    rw [hocc2]
    exact List.mem_append_right _ hc
  · show (aureole_cells false ship.cells _).ships = _
    rw [(aureole_cells_fields false ship.cells _).2.2.1]
    show (place_cells (if bd.hide then Sym.blank else Sym.shipS)
      ship.cells bd).ships ++ [ship] = _
    rw [(place_cells_fields _ ship.cells bd).2.2.1]
  · show (aureole_cells false ship.cells _).occupy_cells = _
    rw [ht, hocc2]

theorem set_len_append {α : Type} :
    ∀ (pre : List α) (a b : α) (post : List α),
      (pre ++ a :: post).set pre.length b = pre ++ b :: post
  | [], _, _, _ => rfl
  | x :: pre, a, b, post => by
    simp only [List.cons_append, List.length_cons, List.set_cons_succ,
      List.cons.injEq, true_and]
    exact set_len_append pre a b post

theorem shot_loop_skip (cell : Cell) (bdX : Board) :
    ∀ (pre : List Ship) (i : Nat) (ship : Ship) (post : List Ship),
      (∀ s ∈ pre, cell ∉ s.cells) →
      shot_loop cell bdX i (pre ++ ship :: post) =
        shot_loop cell bdX (i + pre.length) (ship :: post)
  | [], i, ship, post, _ => by simp
  | s0 :: pre, i, ship, post, hpre => by
    have hs0 : cell ∉ s0.cells := hpre s0 (by simp)
    rw [List.cons_append]
    conv_lhs => rw [shot_loop]
    rw [if_neg hs0,
      shot_loop_skip cell bdX pre (i + 1) ship post
        (fun s hs => hpre s (by simp [hs])),
      show i + 1 + pre.length = i + (s0 :: pre).length from by simp; omega]

theorem shot_loop_occupy_ext (cell : Cell) (bdX : Board) :
    ∀ (i : Nat) (ships : List Ship),
      ∃ t, (shot_loop cell bdX i ships).2.occupy_cells =
        bdX.occupy_cells ++ t := by
  intro i ships
  induction ships generalizing i with
  | nil => exact ⟨[], by simp [shot_loop]⟩
  | cons ship rest ih =>
    simp only [shot_loop]
    by_cases hmem : cell ∈ ship.cells
    · rw [if_pos hmem]
      by_cases hdead : ({ ship with health := ship.health - 1 } : Ship).health = 0
      · rw [if_pos hdead]
        simp only []
        obtain ⟨t, ht, -⟩ := aureole_cells_occupy_ext true
          ({ ship with health := ship.health - 1 } : Ship).cells
          { bdX with
            ships := bdX.ships.set i { ship with health := ship.health - 1 },
            mask := setMask bdX.mask cell.row cell.column Sym.hitS,
            count := bdX.count + 1 }
        exact ⟨t, ht⟩
      · rw [if_neg hdead]
        exact ⟨[], by simp⟩
    · rw [if_neg hmem]
      exact ih (i + 1)

theorem shot_ok_occupy_ext {bd : Board} {cell : Cell} {r : ShotResult}
    {bd' : Board} (h : shot bd cell = Except.ok (r, bd')) :
    ∃ t, bd'.occupy_cells = bd.occupy_cells ++ [cell] ++ t := by
  by_cases hout : outside_board bd cell = true
  · simp [shot, hout] at h
  · by_cases hocc : cell ∈ bd.occupy_cells
    · simp [shot, hout, hocc] at h
    · simp only [shot, hout, Bool.false_eq_true, if_false, if_neg hocc,
        Except.ok.injEq] at h
      obtain ⟨t, ht⟩ := shot_loop_occupy_ext cell
        { bd with occupy_cells := bd.occupy_cells ++ [cell] } 0
        ({ bd with occupy_cells := bd.occupy_cells ++ [cell] } : Board).ships
      refine ⟨t, ?_⟩
      have hbd' : bd' = (shot_loop cell
          { bd with occupy_cells := bd.occupy_cells ++ [cell] } 0
          ({ bd with occupy_cells := bd.occupy_cells ++ [cell] } : Board).ships).2 := by
        rw [h]
      rw [hbd', ht]

/-- Unfolding of one `shot_loop` step at a ship containing the target. -/
theorem shot_loop_hit (cell : Cell) (bdX : Board) (i : Nat) (ship : Ship)
    (post : List Ship) (hcell : cell ∈ ship.cells) :
    shot_loop cell bdX i (ship :: post) =
      (if ({ ship with health := ship.health - 1 } : Ship).health = 0 then
        (ShotResult.destroyed,
          aureole
            { bdX with
              ships := bdX.ships.set i { ship with health := ship.health - 1 },
              mask := setMask bdX.mask cell.row cell.column Sym.hitS,
              count := bdX.count + 1 }
            { ship with health := ship.health - 1 } true)
      else
        (ShotResult.wounded,
          { bdX with
            ships := bdX.ships.set i { ship with health := ship.health - 1 },
            mask := setMask bdX.mask cell.row cell.column Sym.hitS })) := by
  conv_lhs => rw [shot_loop]
  rw [if_pos hcell]

/-- Computation of `shot` at a fresh in-bounds cell of the first ship that
contains it: the full result, with the destruction test left symbolic. -/
theorem shot_eq (bd : Board) (cell : Cell) (pre post : List Ship) (ship : Ship)
    (hships : bd.ships = pre ++ ship :: post)
    (hpre : ∀ s ∈ pre, cell ∉ s.cells)
    (hcell : cell ∈ ship.cells)
    (hin : outside_board bd cell = false)
    (hnot : cell ∉ bd.occupy_cells) :
    shot bd cell =
      (if ({ ship with health := ship.health - 1 } : Ship).health = 0 then
        Except.ok (ShotResult.destroyed,
          aureole
            { bd with
              occupy_cells := bd.occupy_cells ++ [cell],
              ships := pre ++ { ship with health := ship.health - 1 } :: post,
              mask := setMask bd.mask cell.row cell.column Sym.hitS,
              count := bd.count + 1 }
            { ship with health := ship.health - 1 } true)
      else
        Except.ok (ShotResult.wounded,
          { bd with
            occupy_cells := bd.occupy_cells ++ [cell],
            ships := pre ++ { ship with health := ship.health - 1 } :: post,
            mask := setMask bd.mask cell.row cell.column Sym.hitS })) := by
  have hout : ¬ outside_board bd cell = true := by simp [hin]
  obtain ⟨bsize, bhide, bcount, bmask, boccupy, bships⟩ := bd
  subst hships
  simp only [shot, if_neg hout, if_neg hnot]
  rw [shot_loop_skip cell _ pre 0 ship post hpre,
    shot_loop_hit cell _ (0 + pre.length) ship post hcell]
  rw [Nat.zero_add, set_len_append, apply_ite Except.ok]

theorem place_one_spec (rng : Nat → Nat) (bigsize L : Nat) :
    ∀ (fuel : Nat) (b : Board) (k a : Nat), 2001 - a ≤ fuel → a ≤ 2000 →
      ((place_one rng bigsize L fuel b k a).1 = none →
        (place_one rng bigsize L fuel b k a).2.2 = 2001) ∧
      (∀ b2, (place_one rng bigsize L fuel b k a).1 = some b2 →
        a < (place_one rng bigsize L fuel b k a).2.2 ∧
          (place_one rng bigsize L fuel b k a).2.2 ≤ 2000)
  | 0, _b, _k, a, hfuel, ha => absurd hfuel (by omega)
  | fuel + 1, b, k, a, hfuel, ha => by
    by_cases hb : a + 1 > 2000
    · constructor
      · intro _
        simp only [place_one, if_pos hb]
        omega
      · intro b2 hsome
        simp only [place_one, if_pos hb] at hsome
        cases hsome
    · cases hadd : add_ship b (sample_ship rng k bigsize L) with
      | ok b2 =>
        constructor
        · intro hnone
          simp only [place_one, if_neg hb, hadd] at hnone
          cases hnone
        · intro b3 _
          simp only [place_one, if_neg hb, hadd]
          omega
      | error e =>
        have hrec := place_one_spec rng bigsize L fuel b (k + 3) (a + 1)
          (by omega) (by omega)
        constructor
        · intro hnone
          simp only [place_one, if_neg hb, hadd] at hnone ⊢
          exact hrec.1 hnone
        · intro b3 hsome
          simp only [place_one, if_neg hb, hadd] at hsome ⊢
          obtain ⟨h1, h2⟩ := hrec.2 b3 hsome
          exact ⟨by omega, h2⟩

theorem place_ships_spec (rng : Nat → Nat) (bigsize : Nat) :
    ∀ (catalog : List Nat) (b : Board) (k a : Nat), a ≤ 2000 →
      a ≤ (place_ships rng bigsize catalog b k a).2.2.2 ∧
      (place_ships rng bigsize catalog b k a).2.2.2 ≤ 2001 ∧
      ((place_ships rng bigsize catalog b k a).1 = false →
        (place_ships rng bigsize catalog b k a).2.2.2 = 2001) ∧
      ((place_ships rng bigsize catalog b k a).1 = true →
        (place_ships rng bigsize catalog b k a).2.2.2 ≤ 2000)
  | [], b, k, a, ha => by
    simp only [place_ships]
    exact ⟨Nat.le_refl a, by omega, fun hcon => by simp at hcon, fun _ => ha⟩
  | L :: rest, b, k, a, ha => by
    have hspec := place_one_spec rng bigsize L (2001 - a) b k a (Nat.le_refl _) ha
    rcases hp : place_one rng bigsize L (2001 - a) b k a with ⟨o, k2, a2⟩
    rw [hp] at hspec
    cases o with
    | none =>
      have h2001 : a2 = 2001 := hspec.1 rfl
      simp only [place_ships, hp]
      exact ⟨by omega, by omega, fun _ => h2001, fun hcon => by simp at hcon⟩
    | some b2 =>
      obtain ⟨hlt, hle⟩ := hspec.2 b2 rfl
      dsimp only at hlt hle
      have hrest := place_ships_spec rng bigsize rest b2 k2 a2 hle
      simp only [place_ships, hp]
      exact ⟨by omega, hrest.2.1, hrest.2.2.1, hrest.2.2.2⟩

/-- The budget facts of `place_ships_spec`, restated on `random_place`. -/
theorem random_place_spec (rng : Nat → Nat) (k : Nat) (hide : Bool) (size : Nat) :
    (random_place rng k hide size).2.2.2 ≤ 2001 ∧
    ((random_place rng k hide size).1 = false →
      (random_place rng k hide size).2.2.2 = 2001) ∧
    ((random_place rng k hide size).1 = true →
      (random_place rng k hide size).2.2.2 ≤ 2000) :=
  ⟨(place_ships_spec rng (size - 1) (attempted_catalog size)
      (mkBoard hide size) k 0 (by omega)).2.1,
   (place_ships_spec rng (size - 1) (attempted_catalog size)
      (mkBoard hide size) k 0 (by omega)).2.2.1,
   (place_ships_spec rng (size - 1) (attempted_catalog size)
      (mkBoard hide size) k 0 (by omega)).2.2.2⟩

end Sea

/-- C5: `add_ship` accepts a ship iff every one of its cells is in-bounds and
none is already in `occupy_cells` (which holds all previously placed ships'
cells and halos); acceptance commits all of the ship's cells to the occupancy
set and appends the ship, and rejection raises with the board completely
unchanged — the checking pass precedes every mutation, so placement is
atomic. -/
theorem add_ship_accepts_iff_atomic (bd : Sea.Board) (ship : Sea.Ship) :
    ((∃ bd', Sea.add_ship bd ship = Except.ok bd') ↔
      ∀ c ∈ ship.cells, Sea.outside_board bd c = false ∧ c ∉ bd.occupy_cells) ∧
    (∀ bd', Sea.add_ship bd ship = Except.error bd' → bd' = bd) ∧
    (∀ bd', Sea.add_ship bd ship = Except.ok bd' →
      (∀ c ∈ ship.cells, c ∈ bd'.occupy_cells) ∧ bd'.ships = bd.ships ++ [ship]) :=
  ⟨Sea.add_ship_ok_iff bd ship,
   fun _ h => Sea.add_ship_error_unchanged h,
   fun _ h => ⟨(Sea.add_ship_ok_commits h).1, (Sea.add_ship_ok_commits h).2.1⟩⟩

theorem add_ship_accepts_iff_atomic_witness :
    (∀ c ∈ (Sea.mkShip ⟨0, 0⟩ 2 false).cells, c ∈ Sea.addedW5.occupy_cells) ∧
      Sea.addedW5.ships = (Sea.mkBoard false 6).ships ++ [Sea.mkShip ⟨0, 0⟩ 2 false] :=
  (add_ship_accepts_iff_atomic (Sea.mkBoard false 6)
    (Sea.mkShip ⟨0, 0⟩ 2 false)).2.2 Sea.addedW5 rfl

/-- C6: a shot at an in-bounds, not-yet-targeted cell of a ship (the first
ship of the list containing it) with health > 1 reports a wound and
decrements exactly that ship's health by exactly 1 (all other ships
untouched, counter unchanged); with health = 1 it reports the ship
destroyed, increments the destroyed-ship counter by exactly 1, and reveals
the ship's full exclusion halo: every in-bounds halo cell becomes occupied,
and every halo cell not previously targeted is dotted visible. -/
theorem shot_hit_decrements_destroy_reveals
    (bd : Sea.Board) (cell : Sea.Cell) (pre post : List Sea.Ship) (ship : Sea.Ship)
    (hships : bd.ships = pre ++ ship :: post)
    (hpre : ∀ s ∈ pre, cell ∉ s.cells)
    (hcell : cell ∈ ship.cells)
    (hin : Sea.outside_board bd cell = false)
    (hnot : cell ∉ bd.occupy_cells)
    (hwf : Sea.maskWF bd) :
    (1 < ship.health →
      ∃ bd', Sea.shot bd cell = Except.ok (Sea.ShotResult.wounded, bd') ∧
        bd'.ships = pre ++ { ship with health := ship.health - 1 } :: post ∧
        bd'.count = bd.count ∧
        bd'.occupy_cells = bd.occupy_cells ++ [cell] ∧
        Sea.getMask bd'.mask cell.row cell.column = Sea.Sym.hitS) ∧
    (ship.health = 1 →
      ∃ bd', Sea.shot bd cell = Except.ok (Sea.ShotResult.destroyed, bd') ∧
        bd'.ships = pre ++ { ship with health := 0 } :: post ∧
        bd'.count = bd.count + 1 ∧
        Sea.getMask bd'.mask cell.row cell.column = Sea.Sym.hitS ∧
        (∀ hc ∈ Sea.ship_halo ship, Sea.outside_board bd hc = false →
          hc ∈ bd'.occupy_cells ∧
            (hc ∉ bd.occupy_cells → hc ≠ cell →
              Sea.getMask bd'.mask hc.row hc.column = Sea.Sym.dotS))) := by
  have hsq := Sea.shot_eq bd cell pre post ship hships hpre hcell hin hnot
  obtain ⟨hr1, hr2, hr3, hr4⟩ := Sea.outside_board_false_iff.mp hin
  have hhit : Sea.getMask (Sea.setMask bd.mask cell.row cell.column Sea.Sym.hitS)
      cell.row cell.column = Sea.Sym.hitS :=
    Sea.getMask_setMask_self hwf (by omega) (by omega) _
  constructor
  · intro hh
    have hcond : ¬ (({ ship with health := ship.health - 1 } : Sea.Ship).health = 0) := by
      show ¬ (ship.health - 1 = 0)
      omega
    rw [hsq, if_neg hcond]
    exact ⟨_, rfl, rfl, rfl, rfl, hhit⟩
  · intro hh
    have hsub : ship.health - 1 = 0 := by omega
    have hcond : (({ ship with health := ship.health - 1 } : Sea.Ship).health = 0) := hsub
    rw [hsq, if_pos hcond]
    refine ⟨_, rfl, ?_, ?_, ?_, ?_⟩
    · show (Sea.aureole_cells true _ _).ships = _
      rw [(Sea.aureole_cells_fields true _ _).2.2.1]
      show pre ++ ({ ship with health := ship.health - 1 } : Sea.Ship) :: post = _
      rw [hsub]
    · show (Sea.aureole_cells true _ _).count = _
      rw [(Sea.aureole_cells_fields true _ _).2.2.2]
    · show Sea.getMask (Sea.aureole_cells true _ _).mask _ _ = _
      rw [Sea.aureole_cells_mask_preserve true _ _ cell (by simp) (by
        rw [Sea.outside_board_congr rfl cell]
        exact hin)]
      exact hhit
    · intro hc hhalo hinhc
      obtain ⟨cc, hcc, off, hoff, hce⟩ : ∃ cc ∈ ship.cells, ∃ off ∈ Sea.around_ship,
          hc = Sea.Cell.mk (cc.row + off.1) (cc.column + off.2) := by
        obtain ⟨cc, hcc, hmap⟩ := List.mem_flatMap.mp hhalo
        obtain ⟨off, hoff, he⟩ := List.mem_map.mp hmap
        exact ⟨cc, hcc, off, hoff, he.symm⟩
      subst hce
      constructor
      · exact Sea.aureole_cells_mem true _ _ cc off hcc hoff (by
          rw [Sea.outside_board_congr rfl]
          exact hinhc)
      · intro hnomem hnecell
        have hno1 : (Sea.Cell.mk (cc.row + off.1) (cc.column + off.2)) ∉
            bd.occupy_cells ++ [cell] := by
          intro hmem
          rcases List.mem_append.mp hmem with hmem | hmem
          · exact hnomem hmem
          · exact hnecell (by simpa using hmem)
        exact (Sea.aureole_cells_dot _ _ _ (by
            rw [Sea.outside_board_congr rfl]
            exact hinhc) hno1
          ⟨cc, hcc, off, hoff, rfl⟩ (Sea.rowsWF_setMask hwf _ _ _)).2

theorem shot_hit_decrements_destroy_reveals_witness :
    ∃ bd', Sea.shot Sea.bdC6 ⟨0, 0⟩ = Except.ok (Sea.ShotResult.destroyed, bd') ∧
      bd'.ships = [] ++ (⟨⟨0, 0⟩, 1, false, 0⟩ : Sea.Ship) :: [] ∧
      bd'.count = Sea.bdC6.count + 1 ∧
      Sea.getMask bd'.mask (0 : Int) (0 : Int) = Sea.Sym.hitS ∧
      (∀ hc ∈ Sea.ship_halo ⟨⟨0, 0⟩, 1, false, 1⟩,
        Sea.outside_board Sea.bdC6 hc = false →
        hc ∈ bd'.occupy_cells ∧
          (hc ∉ Sea.bdC6.occupy_cells → hc ≠ ⟨0, 0⟩ →
            Sea.getMask bd'.mask hc.row hc.column = Sea.Sym.dotS)) :=
  (shot_hit_decrements_destroy_reveals Sea.bdC6 ⟨0, 0⟩ [] []
    ⟨⟨0, 0⟩, 1, false, 1⟩ rfl (by simp) (by decide) (by decide) (by decide)
    (by constructor <;> decide)).2 rfl

/-- C7 counterexample: a cell enters the occupancy set via `add_ship`, and
the Board operation `begin` then removes it (it resets `occupy_cells` to
empty), so the occupancy set does not only grow over the board's lifetime. -/
theorem occupy_reset_by_begin_counterexample :
    Sea.Cell.mk 0 0 ∈ Sea.addedW7.occupy_cells ∧
      (Sea.Board.begin Sea.addedW7).occupy_cells = [] ∧
      Sea.Cell.mk 0 0 ∉ (Sea.Board.begin Sea.addedW7).occupy_cells := by
  refine ⟨by decide, rfl, by decide⟩

/-- C7 as amended: across `add_ship` (accepted or rejected), `aureole` and
successful `shot` calls the occupancy set only grows — each returns an
`occupy_cells` that extends the input's by appending (revealing a destroyed
ship's halo only appends and re-marks, never removes).  `Board.begin`,
however, resets `occupy_cells` to empty at the placement-to-combat
transition, so the invariant holds only within each phase. -/
theorem occupy_only_grows (bd : Sea.Board) :
    (∀ ship bd', Sea.add_ship bd ship = Except.ok bd' →
      ∃ t, bd'.occupy_cells = bd.occupy_cells ++ t) ∧
    (∀ ship bd', Sea.add_ship bd ship = Except.error bd' →
      bd'.occupy_cells = bd.occupy_cells) ∧
    (∀ ship v, ∃ t, (Sea.aureole bd ship v).occupy_cells = bd.occupy_cells ++ t) ∧
    (∀ cell r bd', Sea.shot bd cell = Except.ok (r, bd') →
      ∃ t, bd'.occupy_cells = bd.occupy_cells ++ t) := by
  refine ⟨?_, ?_, ?_, ?_⟩
  · intro ship bd' h
    obtain ⟨-, -, t, ht⟩ := Sea.add_ship_ok_commits h
    exact ⟨ship.cells ++ t, by rw [ht, List.append_assoc]⟩
  · intro ship bd' h
    rw [Sea.add_ship_error_unchanged h]
  · intro ship v
    obtain ⟨t, ht, -⟩ := Sea.aureole_cells_occupy_ext v ship.cells bd
    exact ⟨t, ht⟩
  · intro cell r bd' h
    obtain ⟨t, ht⟩ := Sea.shot_ok_occupy_ext h
    exact ⟨[cell] ++ t, by rw [ht, List.append_assoc]⟩

theorem occupy_only_grows_witness :
    ∃ t, Sea.addedW7.occupy_cells = (Sea.mkBoard false 5).occupy_cells ++ t :=
  (occupy_only_grows (Sea.mkBoard false 5)).1 (Sea.mkShip ⟨0, 0⟩ 1 false)
    Sea.addedW7 rfl

/-- C8: a placement pass (`random_place`) is a total function whose attempt
counter is shared across all ships of the catalog: at the end it is at most
2001, the pass reports failure exactly when the counter reached 2001 (the
check fires after the 2000th sample, so at most 2000 anchor samplings are
made in the whole pass), and the outer loop (`random_board`) returns the
pass's board on success and otherwise retries a fresh pass — each pass
starting from a fresh empty board by construction. -/
theorem random_place_budget_and_restart (rng : Nat → Nat) (k : Nat)
    (hide : Bool) (size : Nat) :
    (Sea.random_place rng k hide size).2.2.2 ≤ 2001 ∧
    ((Sea.random_place rng k hide size).1 =
      decide ((Sea.random_place rng k hide size).2.2.2 ≤ 2000)) ∧
    (∀ f, Sea.random_board_fuel rng hide size (f + 1) k =
      (if (Sea.random_place rng k hide size).1 = true then
        some ((Sea.random_place rng k hide size).2.1,
          (Sea.random_place rng k hide size).2.2.1)
      else
        Sea.random_board_fuel rng hide size f
          (Sea.random_place rng k hide size).2.2.1)) := by
  have hspec := Sea.random_place_spec rng k hide size
  refine ⟨hspec.1, ?_, ?_⟩
  · cases hres : (Sea.random_place rng k hide size).1 with
    | false =>
      have h2001 := hspec.2.1 hres
      rw [h2001]
      decide
    | true =>
      have hle := hspec.2.2 hres
      exact (decide_eq_true hle).symm
  · intro f
    rcases hres : Sea.random_place rng k hide size with ⟨ok, b2, k2, a2⟩
    cases ok <;> simp [Sea.random_board_fuel, hres]

/-- C9 counterexample: at grid size 6 (one unit below the reference in the
source's indexing) the pass attempts `[3, 2, 2, 1, 1, 1, 1]` — a length-3
ship survives although a length-2 entry was dropped — while scaling the
reference catalog by dropping the longest shapes first, one per unit of
size reduction, would give `[2, 2, 1, 1, 1, 1]`. -/
theorem catalog_not_longest_first_counterexample :
    Sea.attempted_catalog 6 = [3, 2, 2, 1, 1, 1, 1] ∧
    Sea.spec_scaled_catalog 6 = [2, 2, 1, 1, 1, 1] ∧
    Sea.attempted_catalog 6 ≠ Sea.spec_scaled_catalog 6 ∧
    (Sea.attempted_catalog 6).length = 7 ∧
    (Sea.spec_scaled_catalog 6).length = 6 ∧
    (3 : Nat) ∈ Sea.attempted_catalog 6 ∧
    Sea.ships_catalog.count 2 = 3 ∧ (Sea.attempted_catalog 6).count 2 = 2 := by
  decide

/-- C9 as amended: for sizes below 10 the catalog actually attempted is the
positional slice `ships[9 - size :]` of the fixed order
`[4, 3, 2, 3, 2, 2, 1, 1, 1, 1]` — nothing is dropped at size 9, and the
drop is by list position, not longest-first (at size 6 a length-3 ship
remains while a length-2 entry was dropped). -/
theorem attempted_catalog_by_position :
    (∀ (rng : Nat → Nat) (k : Nat) (hide : Bool) (size : Nat),
      Sea.random_place rng k hide size =
        Sea.place_ships rng (size - 1) (Sea.attempted_catalog size)
          (Sea.mkBoard hide size) k 0) ∧
    (∀ size, Sea.attempted_catalog size =
      Sea.ships_catalog.drop (if size < 10 then 9 - size else 0)) ∧
    Sea.attempted_catalog 10 = [4, 3, 2, 3, 2, 2, 1, 1, 1, 1] ∧
    Sea.attempted_catalog 9 = [4, 3, 2, 3, 2, 2, 1, 1, 1, 1] ∧
    Sea.attempted_catalog 8 = [3, 2, 3, 2, 2, 1, 1, 1, 1] ∧
    Sea.attempted_catalog 7 = [2, 3, 2, 2, 1, 1, 1, 1] ∧
    Sea.attempted_catalog 6 = [3, 2, 2, 1, 1, 1, 1] ∧
    Sea.attempted_catalog 5 = [2, 2, 1, 1, 1, 1] :=
  ⟨fun _ _ _ _ => rfl, fun _ => rfl, by decide, by decide, by decide,
   by decide, by decide, by decide⟩

/-- C10: the `Board.__init__` size check is the Python chained comparison
`5 > size > 10`, i.e. `5 > size ∧ size > 10`, which no size satisfies — so
construction never raises `BoardSizeException`: every size (including 4 and
11, outside the documented 5..10 range) yields a board. -/
theorem board_init_never_rejects :
    Sea.Board.init false 4 = Except.ok (Sea.mkBoard false 4) ∧
    Sea.Board.init false 11 = Except.ok (Sea.mkBoard false 11) ∧
    ∀ (hide : Bool) (size : Nat),
      Sea.board_size_invalid size = false ∧
      Sea.Board.init hide size = Except.ok (Sea.mkBoard hide size) := by
  refine ⟨rfl, rfl, ?_⟩
  intro hide size
  have hfalse : Sea.board_size_invalid size = false := by
    simp only [Sea.board_size_invalid, Bool.and_eq_false_iff,
      decide_eq_false_iff_not]
    omega
  exact ⟨hfalse, by simp [Sea.Board.init, hfalse]⟩

